import Mathlib

/-!
Verification of the awk-style record-processing engine (package `command`):
the per-record field-splitting algorithm, the `Context` accessors/mutators,
and the Begin/Condition/Action/End lifecycle driven by `Executor`.

Go strings are modelled as Lean `String` (with character-list internals for
the splitting routines), `map[string]any` as an optional association list
(`none` = nil map), `int`/`int64` as `Int`, and the hook methods of a
`Program` as state-passing functions (a hook receives the context and
returns the possibly mutated context together with its declared results).
The input stream is a list of delivered records followed by an optional
scanner error, matching `bufio.Scanner` behaviour.
-/

namespace Awk

/-- Go's `unicode.IsSpace`: the whitespace characters recognised by
`strings.Fields` (ASCII space class, NEL, NBSP, and the Unicode
White_Space code points). -/
def goIsSpace (c : Char) : Bool :=
  c.val == 9 || c.val == 10 || c.val == 11 || c.val == 12 || c.val == 13 ||
  c.val == 32 || c.val == 0x85 || c.val == 0xA0 ||
  c.val == 0x1680 || (0x2000 ≤ c.val && c.val ≤ 0x200A) ||
  c.val == 0x2028 || c.val == 0x2029 || c.val == 0x202F ||
  c.val == 0x205F || c.val == 0x3000

/-- Worker for `strings.Fields`: scan the characters, accumulating the
current token, emitting it at each whitespace character and at the end;
empty tokens are never emitted. -/
def fieldsAux : List Char → List Char → List (List Char)
  | [], acc => if acc.isEmpty then [] else [acc.reverse]
  | c :: rest, acc =>
    if goIsSpace c then
      if acc.isEmpty then fieldsAux rest [] else acc.reverse :: fieldsAux rest []
    else fieldsAux rest (c :: acc)

/-- Model of Go's `strings.Fields`: split around each maximal run of
whitespace, dropping leading and trailing whitespace. -/
def goFields (s : String) : List String :=
  (fieldsAux s.data []).map String.mk

/-- Worker for `strings.Split` with a non-empty separator: cut the input at
each leftmost, non-overlapping occurrence of `sep`. -/
def splitSepAux (sep : List Char) : List Char → List Char → List (List Char)
  | [], acc => [acc.reverse]
  | c :: rest, acc =>
    if sep.isPrefixOf (c :: rest) then
      acc.reverse :: splitSepAux sep (rest.drop (sep.length - 1)) []
    else
      splitSepAux sep rest (c :: acc)
termination_by l => l.length
decreasing_by
  · simp only [List.length_cons]
    have := List.length_drop (sep.length - 1) rest
    omega
  · simp

/-- Model of Go's `strings.Split`: for an empty separator, explode into
single characters; otherwise split on each exact, non-overlapping
occurrence of the separator. -/
def goSplit (s sep : String) : List String :=
  if sep.data.isEmpty then s.data.map (fun c => String.mk [c])
  else (splitSepAux sep.data s.data []).map String.mk

/-- A Go `any` value as stored in the `Variables` map. -/
inductive GoAny where
  | nil
  | str (s : String)
  | int (n : Int)
  | boolean (b : Bool)
deriving DecidableEq, Repr

/-- The `command.Context` struct: per-run awk execution state. -/
structure Context where
  /-- `Fields[0]` is the whole line, `Fields[1..]` the split fields. -/
  Fields : List String
  /-- Current record number (1-based), a Go `int64`. -/
  NR : Int
  /-- Number of fields in the current record, a Go `int`. -/
  NF : Int
  /-- Input field separator. -/
  FS : String
  /-- Output field separator. -/
  OFS : String
  /-- User variables; `none` models a nil Go map. -/
  Variables : Option (List (String × GoAny))
  /-- Record separator. -/
  RS : String
deriving DecidableEq, Repr

/-- `Context.Field`: bounds-checked field access, empty string when out of
range. -/
def Context.Field (c : Context) (index : Int) : String :=
  if index < 0 ∨ (c.Fields.length : Int) ≤ index then ""
  else c.Fields.getD index.toNat ""

/-- `Context.SetField`: ignore negative indices; otherwise extend the field
slice with empty strings until the index exists, write the value, and
recompute `NF` as the structural length minus one. -/
def Context.SetField (c : Context) (index : Int) (value : String) : Context :=
  if index < 0 then c
  else
    let expanded := c.Fields ++ List.replicate (index.toNat + 1 - c.Fields.length) ""
    let updated := expanded.set index.toNat value
    { c with Fields := updated, NF := (updated.length : Int) - 1 }

/-- `Context.Var`: nil map or missing key reads as Go `nil`. -/
def Context.Var (c : Context) (name : String) : GoAny :=
  match c.Variables with
  | none => GoAny.nil
  | some l => (l.lookup name).getD GoAny.nil

/-- Association-list update used to model a Go map write. -/
def setAssoc (l : List (String × GoAny)) (name : String) (v : GoAny) :
    List (String × GoAny) :=
  if l.any (fun p => p.1 == name) then
    l.map (fun p => if p.1 == name then (name, v) else p)
  else l ++ [(name, v)]

/-- `Context.SetVar`: lazily create the map, then write. -/
def Context.SetVar (c : Context) (name : String) (v : GoAny) : Context :=
  match c.Variables with
  | none => { c with Variables := some [(name, v)] }
  | some l => { c with Variables := some (setAssoc l name v) }

/-- `fmt.Sprint` restricted to the modelled `any` values. -/
def goSprint : GoAny → String
  | .nil => "<nil>"
  | .str s => s
  | .int n => toString n
  | .boolean b => if b then "true" else "false"

/-- `Context.Print`: join the values with `OFS`. -/
def Context.Print (c : Context) (values : List GoAny) : String :=
  String.intercalate c.OFS (values.map goSprint)

/-- The per-record splitting step of `Executor` (after `Fields` receives the
whole line): whitespace-sentinel mode uses `strings.Fields`; any other
separator special-cases the empty line to zero fields and otherwise uses
`strings.Split`. -/
def splitLine (fs : String) (line : String) : List String :=
  if fs = " " then goFields line
  else if line = "" then []
  else goSplit line fs

/-- One record update of `Executor`: increment `NR`, then rebuild `Fields`
as the whole line followed by the split tokens and set `NF` to the token
count. -/
def recordUpdate (c : Context) (line : String) : Context :=
  let c1 := { c with NR := c.NR + 1 }
  let toks := splitLine c1.FS line
  { c1 with Fields := line :: toks, NF := (toks.length : Int) }

/-- The `Program` interface: the four hooks, each receiving the context by
reference (modelled by returning the possibly mutated context alongside the
hook's declared results). -/
structure Program where
  /-- `Begin(ctx) error`. -/
  Begin : Context → Context × Option String
  /-- `Condition(ctx) bool`. -/
  Condition : Context → Context × Bool
  /-- `Action(ctx) (output string, emit bool)`. -/
  Action : Context → Context × String × Bool
  /-- `End(ctx) (output string, err error)`. -/
  End : Context → Context × String × Option String

/-- `SimpleProgram`: the default hook implementations. -/
def SimpleProgram : Program where
  Begin c := (c, none)
  Condition c := (c, true)
  Action c := (c, c.Field 0, true)
  End c := (c, "", none)

/-- The `flags` struct consumed by `Awk`. -/
structure Flags where
  FieldSeparator : String
  OutputFieldSeparator : String
  Variables : Option (List (String × GoAny))
deriving DecidableEq, Repr

/-- The defaulting performed by the `Awk` constructor: empty separators
become the single-space sentinel. -/
def awkDefaults (f : Flags) : Flags :=
  let f1 := if f.FieldSeparator = "" then { f with FieldSeparator := " " } else f
  if f1.OutputFieldSeparator = "" then { f1 with OutputFieldSeparator := " " } else f1

/-- The context built at the top of `Executor`: fresh counters, configured
separators, newline record separator, and the seeded variable map (a fresh
non-nil map holding a copy of the flag-supplied variables). -/
def initialContext (f : Flags) : Context where
  Fields := []
  NR := 0
  NF := 0
  FS := f.FieldSeparator
  OFS := f.OutputFieldSeparator
  Variables := some (f.Variables.getD [])
  RS := "\n"

/-- A terminal run error, mirroring how `Executor` produces it: `Begin` and
`End` errors are wrapped with a phase prefix by `fmt.Errorf`, a scanner
error is returned unchanged. -/
inductive RunError where
  | beginWrap (msg : String)
  | inputRaw (msg : String)
  | endWrap (msg : String)
deriving DecidableEq, Repr

/-- State threaded through the record loop: the context plus the lines
written to stdout so far. -/
structure LoopState where
  ctx : Context
  out : List String
deriving DecidableEq, Repr

/-- One iteration of the record loop: update the context for the line, ask
`Condition`, and when it holds run `Action` and emit its output line when
requested. -/
def processRecord (p : Program) (st : LoopState) (line : String) : LoopState :=
  let c1 := recordUpdate st.ctx line
  let cb := p.Condition c1
  if cb.2 then
    let ab := p.Action cb.1
    { ctx := ab.1, out := st.out ++ (if ab.2.2 then [ab.2.1] else []) }
  else
    { st with ctx := cb.1 }

/-- The record loop of `Executor` over the delivered records. -/
def runLoop (p : Program) (st : LoopState) (records : List String) : LoopState :=
  records.foldl (processRecord p) st

/-- Observable outcome of a run: emitted lines, terminal error, the context
passed to `End` (`none` when `End` was never invoked), how many times `End`
ran, and the final context. -/
structure RunResult where
  out : List String
  err : Option RunError
  endCtx : Option Context
  endCalls : Nat
  final : Context
deriving DecidableEq, Repr

/-- The `Executor` body: build the context, call `Begin` (aborting on a
wrapped error), loop over the delivered records, surface a scanner error
unchanged (skipping `End`), then call `End`, wrapping its error or emitting
its non-empty output as a final line. -/
def run (p : Program) (f : Flags) (records : List String) (readErr : Option String) :
    RunResult :=
  let c0 := initialContext f
  let b := p.Begin c0
  match b.2 with
  | some e =>
      { out := [], err := some (RunError.beginWrap e), endCtx := none,
        endCalls := 0, final := b.1 }
  | none =>
      let st := runLoop p { ctx := b.1, out := [] } records
      match readErr with
      | some e =>
          { out := st.out, err := some (RunError.inputRaw e), endCtx := none,
            endCalls := 0, final := st.ctx }
      | none =>
          let eb := p.End st.ctx
          match eb.2.2 with
          | some e =>
              { out := st.out, err := some (RunError.endWrap e),
                endCtx := some st.ctx, endCalls := 1, final := eb.1 }
          | none =>
              { out := st.out ++ (if eb.2.1 = "" then [] else [eb.2.1]),
                err := none, endCtx := some st.ctx, endCalls := 1, final := eb.1 }

/-- Rendering of the emitted lines as the raw stdout stream:
`fmt.Fprintln` writes each line followed by exactly one terminator. -/
def renderLines (lines : List String) : String :=
  String.join (lines.map (fun l => l ++ "\n"))

/-- A bare context used to instantiate theorems on concrete inputs. -/
def sampleContext (fs : String) (fields : List String) : Context where
  Fields := fields
  NR := 0
  NF := 0
  FS := fs
  OFS := " "
  Variables := none
  RS := "\n"

/-- Whitespace-mode flags used to instantiate run-level theorems. -/
def flagsWS : Flags where
  FieldSeparator := " "
  OutputFieldSeparator := " "
  Variables := none

end Awk

namespace Awk

/-- C1: for the empty record under any literal (non-whitespace-sentinel)
field separator, the split yields no tokens, and after the per-record
update `NF` is `0`, not `1`. -/
theorem splitLine_empty_literal (c : Context) (h : c.FS ≠ " ") :
    splitLine c.FS "" = [] ∧ (recordUpdate c "").NF = 0 := by
  refine ⟨?_, ?_⟩ <;> simp [splitLine, recordUpdate, h]

/-- Witness for `splitLine_empty_literal` at the comma separator. -/
theorem splitLine_empty_literal_witness :
    splitLine (sampleContext "," []).FS "" = [] ∧
      (recordUpdate (sampleContext "," []) "").NF = 0 :=
  splitLine_empty_literal (sampleContext "," []) (by decide)

/-- Spec-side description of whitespace-mode splitting, following the
spec's words: the chunks of the record lying between whitespace characters,
with the empty chunks arising from leading, trailing, or adjacent
whitespace discarded. -/
def whitespaceTokensSpec (s : String) : List String :=
  ((s.data.splitOnP goIsSpace).filter (fun t => !t.isEmpty)).map String.mk

/-- The `strings.Fields` worker agrees with `splitOnP` followed by
discarding empty chunks, for any pending accumulator. -/
lemma fieldsAux_splitOnP (l : List Char) : ∀ acc : List Char,
    fieldsAux l acc =
      ((l.splitOnP goIsSpace).modifyHead (fun t => acc.reverse ++ t)).filter
        (fun t => !t.isEmpty) := by
  induction l with
  | nil =>
      intro acc
      cases acc <;> simp [fieldsAux, List.modifyHead]
  | cons c rest ih =>
      intro acc
      obtain ⟨hd, tl, hsp⟩ :=
        List.exists_cons_of_ne_nil (List.splitOnP_ne_nil goIsSpace rest)
      by_cases hc : goIsSpace c
      · have hrest : fieldsAux rest [] =
            (rest.splitOnP goIsSpace).filter (fun t => !t.isEmpty) := by
          rw [ih [], hsp]
          simp [List.modifyHead]
        cases acc with
        | nil => simp [fieldsAux, hc, hrest, List.splitOnP_cons, List.modifyHead]
        | cons a as =>
            simp [fieldsAux, hc, hrest, List.splitOnP_cons, List.modifyHead]
      · rw [show fieldsAux (c :: rest) acc = fieldsAux rest (c :: acc) by
            simp [fieldsAux, hc]]
        rw [ih (c :: acc), hsp]
        have hne : (acc.reverse ++ c :: hd).isEmpty = false := by
          simp
        simp [List.splitOnP_cons, hc, List.modifyHead, hsp, List.filter, hne]

/-- `strings.Fields` equals the spec-side whitespace tokenisation. -/
lemma goFields_eq_spec (s : String) : goFields s = whitespaceTokensSpec s := by
  unfold goFields whitespaceTokensSpec
  rw [fieldsAux_splitOnP]
  obtain ⟨hd, tl, hsp⟩ :=
    List.exists_cons_of_ne_nil (List.splitOnP_ne_nil goIsSpace s.data)
  rw [hsp]
  simp [List.modifyHead]

/-- When every character is whitespace, every `splitOnP` chunk is empty, so
nothing survives the filter. -/
lemma splitOnP_filter_allSpace :
    ∀ l : List Char, (∀ ch ∈ l, goIsSpace ch) →
      (l.splitOnP goIsSpace).filter (fun t => !t.isEmpty) = [] := by
  intro l
  induction l with
  | nil => intro _; simp
  | cons c rest ih =>
      intro h
      have hc : goIsSpace c := h c (by simp)
      rw [List.splitOnP_cons, if_pos hc]
      simpa using ih (fun ch hch => h ch (by simp [hch]))

/-- C2: in whitespace-sentinel mode the engine's split equals the spec's
maximal-run tokenisation with edge whitespace discarded, and an empty or
all-whitespace record yields zero fields and `NF = 0`. -/
theorem splitLine_whitespace_spec (s : String) :
    splitLine " " s = whitespaceTokensSpec s ∧
    ((∀ ch ∈ s.data, goIsSpace ch) →
      splitLine " " s = [] ∧
        ∀ c : Context, c.FS = " " → (recordUpdate c s).NF = 0) := by
  have hmain : splitLine " " s = whitespaceTokensSpec s := by
    rw [show splitLine " " s = goFields s from if_pos rfl]
    exact goFields_eq_spec s
  refine ⟨hmain, fun hall => ?_⟩
  have hz : splitLine " " s = [] := by
    rw [hmain]
    unfold whitespaceTokensSpec
    rw [splitOnP_filter_allSpace s.data hall]
    rfl
  refine ⟨hz, fun c hfs => ?_⟩
  have hnf : (recordUpdate c s).NF = ((splitLine c.FS s).length : Int) := rfl
  rw [hnf, hfs, hz]
  rfl

/-- Witness for `splitLine_whitespace_spec`: a record of two tokens and an
all-whitespace record. -/
theorem splitLine_whitespace_witness :
    splitLine " " " a  b " = whitespaceTokensSpec " a  b " ∧
      splitLine " " " \t " = [] ∧
      (recordUpdate (sampleContext " " []) " \t ").NF = 0 := by
  have h1 := (splitLine_whitespace_spec " a  b ").1
  have h2 := (splitLine_whitespace_spec " \t ").2 (by decide)
  exact ⟨h1, h2.1, h2.2 (sampleContext " " []) rfl⟩

/-- Spec-side count of the exact, non-overlapping occurrences of `sep`
in a character list, scanning left to right. -/
def countOcc (sep : List Char) : List Char → Nat
  | [] => 0
  | c :: rest =>
    if sep.isPrefixOf (c :: rest) then countOcc sep (rest.drop (sep.length - 1)) + 1
    else countOcc sep rest
termination_by l => l.length
decreasing_by
  · simp only [List.length_cons]
    have := List.length_drop (sep.length - 1) rest
    omega
  · simp

/-- The `strings.Split` worker produces one part more than the number of
separator occurrences, whatever the pending accumulator. -/
lemma splitSepAux_length (sep : List Char) :
    ∀ n l acc, l.length ≤ n → (splitSepAux sep l acc).length = countOcc sep l + 1 := by
  intro n
  induction n with
  | zero =>
      intro l acc h
      have hl : l = [] := List.eq_nil_of_length_eq_zero (Nat.le_zero.mp h)
      subst hl
      simp [splitSepAux, countOcc]
  | succ m ih =>
      intro l acc h
      match l with
      | [] => simp [splitSepAux, countOcc]
      | c :: rest =>
          by_cases hp : sep.isPrefixOf (c :: rest)
          · rw [splitSepAux, countOcc]
            simp only [hp, if_true, List.length_cons]
            have hdrop : (rest.drop (sep.length - 1)).length ≤ m := by
              have := List.length_drop (sep.length - 1) rest
              simp only [List.length_cons] at h
              omega
            rw [ih _ [] hdrop]
          · rw [splitSepAux, countOcc]
            rw [if_neg hp, if_neg hp]
            have hrest : rest.length ≤ m := by
              simp only [List.length_cons] at h
              omega
            rw [ih _ (c :: acc) hrest]

/-- Cutting a list that starts with the (non-empty) separator emits the
accumulator and restarts right after the separator. -/
lemma splitSepAux_sep_append (sep : List Char) (hsep : sep ≠ []) (rest acc : List Char) :
    splitSepAux sep (sep ++ rest) acc = acc.reverse :: splitSepAux sep rest [] := by
  match sep, hsep with
  | c :: sep', _ =>
      have hpre : (c :: sep').isPrefixOf ((c :: sep') ++ rest) = true := by
        rw [List.isPrefixOf_iff_prefix]
        exact List.prefix_append _ _
      rw [List.cons_append, splitSepAux]
      rw [show (c :: sep') ++ rest = c :: (sep' ++ rest) from rfl] at hpre
      simp only [hpre, if_true, List.length_cons, Nat.succ_sub_one]
      rw [List.drop_left]

/-- A string is empty exactly when its character list is. -/
lemma String_eq_empty_of_data {s : String} (h : s.data = []) : s = "" := by
  cases s
  simp_all

/-- C3: for a non-empty record and a configured literal separator (which the
`Awk` constructor guarantees is neither empty nor the whitespace sentinel),
the field count is the number of exact non-overlapping occurrences of the
separator plus one, and two adjacent separators alone produce three empty
fields (one empty intervening field between them). -/
theorem splitLine_literal_count (s sep : String) (hs : s ≠ "") (h1 : sep ≠ " ")
    (h2 : sep ≠ "") :
    (splitLine sep s).length = countOcc sep.data s.data + 1 ∧
    splitLine sep (sep ++ sep) = ["", "", ""] := by
  have hdata : ¬sep.data.isEmpty = true := by
    intro hcontra
    exact h2 (String_eq_empty_of_data (List.isEmpty_iff.mp hcontra))
  have hdne : sep.data ≠ [] := fun hcontra => hdata (by simp [hcontra])
  constructor
  · rw [show splitLine sep s = goSplit s sep by simp [splitLine, h1, hs]]
    unfold goSplit
    rw [if_neg hdata, List.length_map]
    exact splitSepAux_length sep.data s.data.length s.data [] le_rfl
  · have hss : (sep ++ sep) ≠ "" := by
      intro hcontra
      apply hdne
      have hdd : sep.data ++ sep.data = [] := by
        rw [show sep.data ++ sep.data = (sep ++ sep).data from rfl, hcontra]
      exact (List.append_eq_nil.mp hdd).1
    rw [show splitLine sep (sep ++ sep) = goSplit (sep ++ sep) sep by
      simp [splitLine, h1, hss]]
    unfold goSplit
    rw [if_neg hdata]
    have hd : (sep ++ sep).data = sep.data ++ sep.data := rfl
    have h2nd : splitSepAux sep.data sep.data [] =
        ([] : List Char).reverse :: splitSepAux sep.data [] [] := by
      have haux := splitSepAux_sep_append sep.data hdne [] []
      rwa [List.append_nil] at haux
    rw [hd, splitSepAux_sep_append sep.data hdne, h2nd]
    simp [splitSepAux]

/-- Witness for `splitLine_literal_count` at `"a,,b"` split on a comma. -/
theorem splitLine_literal_count_witness :
    (splitLine "," "a,,b").length = countOcc ",".data "a,,b".data + 1 ∧
      splitLine "," ("," ++ ",") = ["", "", ""] :=
  splitLine_literal_count "a,,b" "," (by decide) (by decide) (by decide)

/-- After a record update, `Fields` is the whole line followed by the split
tokens. -/
lemma recordUpdate_Fields (c : Context) (line : String) :
    (recordUpdate c line).Fields = line :: splitLine c.FS line := rfl

/-- After a record update, `NF` is the number of split tokens. -/
lemma recordUpdate_NF (c : Context) (line : String) :
    (recordUpdate c line).NF = ((splitLine c.FS line).length : Int) := rfl

/-- C4: every per-record update leaves `Fields` as the whole record followed
by the split tokens, `NF` equal to the token count, and the structural
invariant `len(Fields) = NF + 1`. -/
theorem recordUpdate_structure (c : Context) (line : String) :
    (recordUpdate c line).Fields = line :: splitLine c.FS line ∧
    (recordUpdate c line).NF = ((splitLine c.FS line).length : Int) ∧
    ((recordUpdate c line).Fields.length : Int) = (recordUpdate c line).NF + 1 := by
  refine ⟨recordUpdate_Fields c line, recordUpdate_NF c line, ?_⟩
  simp [recordUpdate]

/-- C5: `Field` is total: any negative or out-of-range index reads as the
empty string, and index `0` reads the whole current record after an update. -/
theorem Field_total (c : Context) (i : Int) :
    ((i < 0 ∨ (c.Fields.length : Int) ≤ i) → c.Field i = "") ∧
    (∀ line, (recordUpdate c line).Field 0 = line) := by
  constructor
  · intro h
    simp only [Context.Field, if_pos h]
  · intro line
    have hlen : ¬((0 : Int) < 0 ∨ (((recordUpdate c line).Fields.length : Int) ≤ 0)) := by
      rw [recordUpdate_Fields]
      simp
    simp only [Context.Field, if_neg hlen]
    rw [recordUpdate_Fields]
    rfl

/-- Witness for `Field_total`: out-of-range reads on a concrete context and
the whole-record read after a concrete update. -/
theorem Field_total_witness :
    (sampleContext " " ["a b", "a", "b"]).Field (-1) = "" ∧
      (sampleContext " " ["a b", "a", "b"]).Field 7 = "" ∧
      (recordUpdate (sampleContext " " []) "x y").Field 0 = "x y" :=
  ⟨(Field_total (sampleContext " " ["a b", "a", "b"]) (-1)).1 (by decide),
   (Field_total (sampleContext " " ["a b", "a", "b"]) 7).1 (by decide),
   (Field_total (sampleContext " " []) 0).2 "x y"⟩

/-- C6: `SetField` ignores negative indices entirely; for a non-negative
index it pads with empty strings up to the index, writes the value, and
recomputes `NF` from the structural length alone. -/
theorem SetField_spec (c : Context) (i : Int) (v : String) :
    (i < 0 → c.SetField i v = c) ∧
    (0 ≤ i →
      (c.SetField i v).Field i = v ∧
      (c.SetField i v).NF = ((c.SetField i v).Fields.length : Int) - 1 ∧
      (c.SetField i v).Fields.length = max c.Fields.length (i.toNat + 1)) := by
  constructor
  · intro h
    simp [Context.SetField, h]
  · intro h
    have hni : ¬ i < 0 := not_lt.mpr h
    have hlen :
        ((c.Fields ++ List.replicate (i.toNat + 1 - c.Fields.length) "").set i.toNat v).length =
          max c.Fields.length (i.toNat + 1) := by
      simp
      omega
    have hin : i.toNat <
        ((c.Fields ++ List.replicate (i.toNat + 1 - c.Fields.length) "").set i.toNat v).length := by
      rw [hlen]
      omega
    refine ⟨?_, ?_, ?_⟩
    · have hcast : ((((c.Fields ++
          List.replicate (i.toNat + 1 - c.Fields.length) "").set i.toNat v).length : Int) ≤ i) →
          False := by
        intro hcontra
        rw [hlen] at hcontra
        omega
      simp only [Context.SetField, if_neg hni, Context.Field]
      rw [if_neg]
      · rw [List.getD_eq_getElem _ _ (by simpa using hin)]
        exact List.getElem_set_self _
      · rintro (h1 | h2)
        · exact hni h1
        · exact hcast h2
    · simp [Context.SetField, hni]
    · simp only [Context.SetField, if_neg hni]
      exact hlen

/-- Witness for `SetField_spec`: a negative write is a no-op and an
extending write at index 5 on a 3-element field slice. -/
theorem SetField_spec_witness :
    ((sampleContext " " ["w", "f1", "f2"]).SetField (-1) "ignored" =
        sampleContext " " ["w", "f1", "f2"]) ∧
      ((sampleContext " " ["w", "f1", "f2"]).SetField 5 "new").Field 5 = "new" ∧
      ((sampleContext " " ["w", "f1", "f2"]).SetField 5 "new").Fields.length = 6 := by
  have h1 := (SetField_spec (sampleContext " " ["w", "f1", "f2"]) (-1) "ignored").1 (by decide)
  have h2 := (SetField_spec (sampleContext " " ["w", "f1", "f2"]) 5 "new").2 (by decide)
  exact ⟨h1, h2.1, by rw [h2.2.2]; decide⟩

/-- The record update increments `NR` by exactly one. -/
lemma recordUpdate_NR (c : Context) (line : String) :
    (recordUpdate c line).NR = c.NR + 1 := rfl

/-- The record update never touches the configured separator. -/
lemma recordUpdate_FS (c : Context) (line : String) :
    (recordUpdate c line).FS = c.FS := rfl

/-- One loop iteration adds exactly one to `NR` when the hooks leave `NR`
alone. -/
lemma processRecord_NR (p : Program) (st : LoopState) (line : String)
    (hc : ∀ c, (p.Condition c).1.NR = c.NR) (ha : ∀ c, (p.Action c).1.NR = c.NR) :
    (processRecord p st line).ctx.NR = st.ctx.NR + 1 := by
  simp only [processRecord]
  by_cases hcd : (p.Condition (recordUpdate st.ctx line)).2
  · simp [hcd, ha, hc, recordUpdate_NR]
  · simp [hcd, hc, recordUpdate_NR]

/-- The loop adds the number of records to `NR` when the hooks leave `NR`
alone. -/
lemma runLoop_NR (p : Program) (records : List String)
    (hc : ∀ c, (p.Condition c).1.NR = c.NR) (ha : ∀ c, (p.Action c).1.NR = c.NR) :
    ∀ st : LoopState, (runLoop p st records).ctx.NR = st.ctx.NR + (records.length : Int) := by
  induction records with
  | nil => intro st; simp [runLoop]
  | cons r rs ih =>
      intro st
      have hstep := processRecord_NR p st r hc ha
      simp only [runLoop, List.foldl_cons] at *
      rw [ih (processRecord p st r), hstep, List.length_cons]
      push_cast
      ring

/-- C7: `NR` starts at `0`, the engine adds exactly `1` per record before
the hooks observe the context (so it never decreases), and after a loop
over `n` records whose hooks leave `NR` alone it has grown by exactly `n`. -/
theorem recordNumber_progression (p : Program) (f : Flags) (st : LoopState)
    (records : List String) (c : Context) (line : String)
    (hc : ∀ c, (p.Condition c).1.NR = c.NR) (ha : ∀ c, (p.Action c).1.NR = c.NR) :
    (initialContext f).NR = 0 ∧
    (recordUpdate c line).NR = c.NR + 1 ∧
    (runLoop p st records).ctx.NR = st.ctx.NR + (records.length : Int) := by
  exact ⟨rfl, recordUpdate_NR c line, runLoop_NR p records hc ha st⟩

/-- Witness for `recordNumber_progression`: the default program over two
records, starting from the freshly initialised context. -/
theorem recordNumber_progression_witness :
    (runLoop SimpleProgram { ctx := initialContext flagsWS, out := [] } ["a", "b"]).ctx.NR =
      (initialContext flagsWS).NR + ((["a", "b"] : List String).length : Int) := by
  have h := recordNumber_progression SimpleProgram flagsWS
    { ctx := initialContext flagsWS, out := [] } ["a", "b"] (initialContext flagsWS) ""
    (fun _ => rfl) (fun _ => rfl)
  exact h.2.2

/-- C8: `End` runs exactly once precisely when `Begin` succeeds and the
input stream ends cleanly; a `Begin` error aborts with a wrapped
setup-phase error and no output; a read error terminates the run with the
scanner's error while keeping the output emitted for the delivered records
and skipping `End`; an `End` error becomes the wrapped terminal error. -/
theorem lifecycle_termination (p : Program) (f : Flags) (records : List String)
    (readErr : Option String) :
    ((run p f records readErr).endCalls = 1 ↔
      ((p.Begin (initialContext f)).2 = none ∧ readErr = none)) ∧
    (∀ e, (p.Begin (initialContext f)).2 = some e →
      (run p f records readErr).err = some (RunError.beginWrap e) ∧
      (run p f records readErr).out = [] ∧ (run p f records readErr).endCalls = 0) ∧
    (∀ e, (p.Begin (initialContext f)).2 = none → readErr = some e →
      (run p f records readErr).err = some (RunError.inputRaw e) ∧
      (run p f records readErr).out =
        (runLoop p { ctx := (p.Begin (initialContext f)).1, out := [] } records).out ∧
      (run p f records readErr).endCalls = 0) ∧
    (∀ e, (p.Begin (initialContext f)).2 = none → readErr = none →
      (p.End (runLoop p { ctx := (p.Begin (initialContext f)).1, out := [] } records).ctx).2.2 =
        some e →
      (run p f records readErr).err = some (RunError.endWrap e) ∧
      (run p f records readErr).endCalls = 1) := by
  cases hb : (p.Begin (initialContext f)).2 with
  | some e0 =>
      cases readErr <;>
        simp [run, hb]
  | none =>
      cases hre : readErr with
      | some e1 => simp [run, hb, hre]
      | none =>
          cases he : (p.End (runLoop p { ctx := (p.Begin (initialContext f)).1, out := [] }
              records).ctx).2.2 with
          | some e2 => simp [run, hb, he]
          | none => simp [run, hb, he]

/-- A program whose setup hook fails, used to instantiate the lifecycle
theorem. -/
def failBeginProgram : Program where
  Begin c := (c, some "begin error")
  Condition c := (c, true)
  Action c := (c, "", true)
  End c := (c, "", none)

/-- Witness for `lifecycle_termination`: the failing-setup branch on a
concrete run. -/
theorem lifecycle_termination_witness :
    (run failBeginProgram flagsWS ["x"] none).err =
        some (RunError.beginWrap "begin error") ∧
      (run failBeginProgram flagsWS ["x"] none).out = [] ∧
      (run failBeginProgram flagsWS ["x"] none).endCalls = 0 :=
  (lifecycle_termination failBeginProgram flagsWS ["x"] none).2.1 "begin error" rfl

/-- Appending one emitted line to the stream adds its text plus exactly one
line terminator. -/
lemma renderLines_snoc (lines : List String) (l : String) :
    renderLines (lines ++ [l]) = renderLines lines ++ (l ++ "\n") := by
  simp only [renderLines, List.map_append, List.map_cons, List.map_nil, String.join,
    List.foldl_append, List.foldl_cons, List.foldl_nil]

/-- C9: when `Condition` holds and `Action` asks to emit, the engine
appends exactly the returned string as one output line (one terminator,
so an empty output is one empty line), and `End` output is appended as one
final line exactly when it is non-empty. -/
theorem emission_one_line (p : Program) (f : Flags) (st : LoopState) (line : String)
    (records lines : List String) (l : String) :
    (∀ o c2 c3, p.Condition (recordUpdate st.ctx line) = (c2, true) →
      p.Action c2 = (c3, o, true) → (processRecord p st line).out = st.out ++ [o]) ∧
    renderLines (lines ++ [l]) = renderLines lines ++ (l ++ "\n") ∧
    (∀ o c, (p.Begin (initialContext f)).2 = none →
      p.End (runLoop p { ctx := (p.Begin (initialContext f)).1, out := [] } records).ctx =
        (c, o, none) →
      (run p f records none).out =
        (runLoop p { ctx := (p.Begin (initialContext f)).1, out := [] } records).out ++
          (if o = "" then [] else [o])) := by
  refine ⟨?_, renderLines_snoc lines l, ?_⟩
  · intro o c2 c3 hcond hact
    simp [processRecord, hcond, hact]
  · intro o c hb hend
    simp [run, hb, hend]

/-- A program that emits the empty string for every record, to instantiate
the emission theorem. -/
def emptyEmitProgram : Program where
  Begin c := (c, none)
  Condition c := (c, true)
  Action c := (c, "", true)
  End c := (c, "", none)

/-- Witness for `emission_one_line`: an emitted empty string becomes one
empty output line, and the empty teardown output adds no final line. -/
theorem emission_one_line_witness :
    (processRecord emptyEmitProgram { ctx := initialContext flagsWS, out := [] } "x").out =
      ([] : List String) ++ [""] ∧
    renderLines (([] : List String) ++ [""]) = renderLines [] ++ ("" ++ "\n") ∧
    (run emptyEmitProgram flagsWS ["x"] none).out =
      (runLoop emptyEmitProgram
          { ctx := (emptyEmitProgram.Begin (initialContext flagsWS)).1, out := [] }
          ["x"]).out ++
        (if ("" : String) = "" then [] else [("" : String)]) := by
  have h := emission_one_line emptyEmitProgram flagsWS
    { ctx := initialContext flagsWS, out := [] } "x" ["x"] [] ""
  exact ⟨h.1 "" _ _ rfl rfl, h.2.1, h.2.2 "" _ rfl rfl⟩

/-- With hooks that do not mutate the context, the loop state is exactly
the fold of the engine's record updates. -/
lemma runLoop_pure_ctx (p : Program) (records : List String)
    (hc : ∀ c, (p.Condition c).1 = c) (ha : ∀ c, (p.Action c).1 = c) :
    ∀ st, (runLoop p st records).ctx = records.foldl recordUpdate st.ctx := by
  induction records with
  | nil => intro st; simp [runLoop]
  | cons r rs ih =>
      intro st
      simp only [runLoop, List.foldl_cons] at *
      rw [ih]
      congr 1
      simp only [processRecord]
      by_cases hcd : (p.Condition (recordUpdate st.ctx r)).2 <;> simp [hcd, hc, ha]

/-- The fold of record updates adds the record count to `NR`. -/
lemma foldl_recordUpdate_NR (records : List String) :
    ∀ c : Context, (records.foldl recordUpdate c).NR = c.NR + (records.length : Int) := by
  induction records with
  | nil => intro c; simp
  | cons r rs ih =>
      intro c
      rw [List.foldl_cons, ih, recordUpdate_NR, List.length_cons]
      push_cast
      ring

/-- The fold of record updates never touches the separator. -/
lemma foldl_recordUpdate_FS (records : List String) :
    ∀ c : Context, (records.foldl recordUpdate c).FS = c.FS := by
  induction records with
  | nil => intro c; rfl
  | cons r rs ih => intro c; rw [List.foldl_cons, ih, recordUpdate_FS]

/-- C10: the one context is threaded unchanged into `End`: with
context-preserving per-record hooks and a `Begin` that succeeds without
touching the counters or fields, `End` observes exactly the fold of the
record updates — `NR` equal to the record count and `Fields` holding the
last record's split — and after zero records it observes the post-`Begin`
context with `NR = 0`, empty `Fields`, `NF = 0`, and the seeded variables. -/
theorem context_threading (p : Program) (f : Flags) (records : List String)
    (hb : (p.Begin (initialContext f)).2 = none)
    (hbn : (p.Begin (initialContext f)).1.NR = 0)
    (hbf : (p.Begin (initialContext f)).1.Fields = [])
    (hbnf : (p.Begin (initialContext f)).1.NF = 0)
    (hc : ∀ c, (p.Condition c).1 = c) (ha : ∀ c, (p.Action c).1 = c) :
    (run p f records none).endCtx =
      some (records.foldl recordUpdate (p.Begin (initialContext f)).1) ∧
    (records.foldl recordUpdate (p.Begin (initialContext f)).1).NR =
      (records.length : Int) ∧
    (∀ rs last, records = rs ++ [last] →
      (records.foldl recordUpdate (p.Begin (initialContext f)).1).Fields =
        last :: splitLine (p.Begin (initialContext f)).1.FS last ∧
      (records.foldl recordUpdate (p.Begin (initialContext f)).1).NF =
        ((splitLine (p.Begin (initialContext f)).1.FS last).length : Int)) ∧
    (records = [] →
      (run p f records none).endCtx = some ((p.Begin (initialContext f)).1) ∧
      (p.Begin (initialContext f)).1.Fields = [] ∧
      (p.Begin (initialContext f)).1.NF = 0 ∧
      (p.Begin (initialContext f)).1.NR = 0 ∧
      (initialContext f).Variables = some (f.Variables.getD [])) := by
  have hend : (run p f records none).endCtx =
      some (records.foldl recordUpdate (p.Begin (initialContext f)).1) := by
    simp only [run, hb]
    split <;> simp [runLoop_pure_ctx p records hc ha]
  refine ⟨hend, ?_, ?_, ?_⟩
  · rw [foldl_recordUpdate_NR, hbn, zero_add]
  · intro rs last hrec
    subst hrec
    rw [List.foldl_append, List.foldl_cons, List.foldl_nil]
    constructor
    · rw [recordUpdate_Fields, foldl_recordUpdate_FS]
    · rw [recordUpdate_NF, foldl_recordUpdate_FS]
  · intro hrec
    subst hrec
    exact ⟨by simpa using hend, hbf, hbnf, hbn, rfl⟩

/-- Witness for `context_threading`: the default program over one record. -/
theorem context_threading_witness :
    (run SimpleProgram flagsWS ["a b"] none).endCtx =
      some ((["a b"] : List String).foldl recordUpdate
        (SimpleProgram.Begin (initialContext flagsWS)).1) ∧
    ((["a b"] : List String).foldl recordUpdate
        (SimpleProgram.Begin (initialContext flagsWS)).1).NR =
      (((["a b"] : List String).length : Nat) : Int) := by
  have h := context_threading SimpleProgram flagsWS ["a b"] rfl rfl rfl rfl
    (fun _ => rfl) (fun _ => rfl)
  exact ⟨h.1, h.2.1⟩

end Awk
